import Mathlib

/-!
Verification development for the spreadsheet-consolidation pipeline of
`UnificadorDePlanilha.py`.  The Python cell values relevant to the verified
functions are either absent (`None`) or text; they are modelled as
`Option String`.  Python floats are modelled exactly as dyadic rationals
`m * 2 ^ e` (every IEEE-754 double is of this form).  Python string
primitives (`str.strip`, `str.upper`, `re.sub r"\s+"`) are modelled on ASCII
character data.
-/

namespace Unificador

/-- Whitespace test matching Python's `str.strip` / regex `\s` on ASCII text:
space, tab, newline, carriage return, vertical tab, form feed. -/
def pySpace (c : Char) : Bool :=
  c.toNat == 32 || c.toNat == 9 || c.toNat == 10 || c.toNat == 13 ||
  c.toNat == 11 || c.toNat == 12

/-- ASCII model of Python's `str.upper` on a single character. -/
def pyUpper (c : Char) : Char :=
  if 97 ≤ c.toNat ∧ c.toNat ≤ 122 then Char.ofNat (c.toNat - 32) else c

/-- Leading-whitespace removal (left half of Python `str.strip`). -/
def dropLead (l : List Char) : List Char := l.dropWhile pySpace

/-- Trailing-whitespace removal (right half of Python `str.strip`). -/
def dropTrail (l : List Char) : List Char :=
  (l.reverse.dropWhile pySpace).reverse

/-- Python `str.strip` on character data. -/
def pyStripList (l : List Char) : List Char := dropTrail (dropLead l)

/-- Python `str.strip` on strings. -/
def pyStrip (s : String) : String := String.mk (pyStripList s.data)

/-- Replacement of each maximal whitespace run by a single space: Python
`re.sub(r"\s+", " ", text)`. -/
def collapseRuns : List Char → List Char
  | [] => []
  | [c] => [if pySpace c then ' ' else c]
  | c :: d :: t =>
    if pySpace c && pySpace d then collapseRuns (d :: t)
    else (if pySpace c then ' ' else c) :: collapseRuns (d :: t)

/-- Python `str.upper` on strings (ASCII model). -/
def struper (s : String) : String := String.mk (s.data.map pyUpper)

/-- Python slice `s[n:]` on strings. -/
def strdrop (n : Nat) (s : String) : String := String.mk (s.data.drop n)

/-- Source `normalize_description`: empty or `'None'` input maps to the empty
string; otherwise strip, collapse internal whitespace runs to one space, and
uppercase. -/
def normalize_description (text : String) : String :=
  if text = "" ∨ text = "None" then ""
  else String.mk ((collapseRuns (pyStripList text.data)).map pyUpper)

/-- Modelled from the spec: the normal form the specification states for code
comparison — "trim, collapse internal whitespace runs to one space,
uppercase".  This is not a source function; it exists to compare the spec's
claimed comparison key with the one the source actually uses. -/
def spec_code_normal_form (s : String) : String :=
  String.mk ((collapseRuns (pyStripList s.data)).map pyUpper)

/-- Source `get_cell_color`: the argument is the cell fill's `rgb` attribute
(`none` when the fill, its start color, or its rgb string is absent or
falsy).  An 8-character rgb keeps its last 6 characters uppercased, a
6-character rgb is uppercased, anything else yields `none`. -/
def get_cell_color (rgb : Option String) : Option String :=
  match rgb with
  | Option.none => Option.none
  | some s =>
    if s = "" then Option.none
    else if s.length = 8 then some (struper (strdrop 2 s))
    else if s.length = 6 then some (struper s)
    else Option.none

/-- Hexadecimal-digit predicate on a character (0-9, A-F, a-f). -/
def hexDigit (c : Char) : Prop :=
  (48 ≤ c.toNat ∧ c.toNat ≤ 57) ∨ (65 ≤ c.toNat ∧ c.toNat ≤ 70) ∨
  (97 ≤ c.toNat ∧ c.toNat ≤ 102)

/-- Uppercase hexadecimal-digit predicate on a character (0-9, A-F). -/
def upperHexDigit (c : Char) : Prop :=
  (48 ≤ c.toNat ∧ c.toNat ≤ 57) ∨ (65 ≤ c.toNat ∧ c.toNat ≤ 70)

instance : DecidablePred hexDigit := fun _ => by unfold hexDigit; infer_instance

instance : DecidablePred upperHexDigit := fun _ => by
  unfold upperHexDigit; infer_instance

/-- Source `get_item_level_py`, on the text-or-empty cell values the pipeline
supplies to it: falsy value (absent or empty string) or whitespace-only text
gives level `-1`; otherwise the level is the number of dots in the stripped
text plus one. -/
def get_item_level_py : Option String → Int
  | Option.none => -1
  | some s =>
    if s = "" then -1
    else
      let clean := pyStrip s
      if clean = "" then -1
      else ((clean.data.countP (fun c => c == '.')) : Int) + 1

/-- Python `str(v)` for a `None`-or-text value (`str(None) = "None"`). -/
def pyStrOfOpt : Option String → String
  | Option.none => "None"
  | some s => s

/-- The code/bank key used by the ambiguity scan and by step 10:
`str(cell.value).strip() if cell.value else ''`. -/
def codeKey : Option String → String
  | Option.none => ""
  | some s => if s = "" then "" else pyStrip s

/-- First bank recorded for a code: lookup in the scan's `code_map`
dictionary, modelled as an association list. -/
def firstBank : List (String × String) → String → Option String
  | [], _ => Option.none
  | e :: t, c => if e.1 = c then some e.2 else firstBank t c

/-- Loop body state of source `_find_problematic_abc_codes`: `m` is
`code_map`, `probs` is `problematic_codes`, and the list argument holds the
remaining `(column A value, column B value)` rows. -/
def fpcAux : List (String × String) → List String →
    List (Option String × Option String) → List String
  | _, probs, [] => probs
  | m, probs, r :: rest =>
    let code := codeKey r.1
    let bank := codeKey r.2
    if code ≠ "" ∧ code ≠ "None" then
      match firstBank m code with
      | some b =>
        if b ≠ bank then fpcAux m (probs.insert code) rest
        else fpcAux m probs rest
      | Option.none => fpcAux ((code, bank) :: m) probs rest
    else fpcAux m probs rest

/-- Source `_find_problematic_abc_codes` over the `(code, bank)` rows scanned
from row 2 onward of the ABC sheet (the rows are the list argument). -/
def find_problematic_abc_codes
    (rows : List (Option String × Option String)) : List String :=
  fpcAux [] [] rows

/-- A row at code `c` is ambiguous when `c` is a valid code and occurs on two
rows of the scan with distinct bank keys. -/
def ambiguousCode (rows : List (Option String × Option String))
    (c : String) : Prop :=
  c ≠ "" ∧ c ≠ "None" ∧
  ∃ r₁ ∈ rows, ∃ r₂ ∈ rows,
    codeKey r₁.1 = c ∧ codeKey r₂.1 = c ∧ codeKey r₁.2 ≠ codeKey r₂.2

/-- Valid `(code, bank)` key pairs of the scanned rows, in scan order: rows
whose code key is nonempty and not the `str(None)` artifact. -/
def scanEntries : List (Option String × Option String) → List (String × String)
  | [] => []
  | r :: rest =>
    let c := codeKey r.1
    if c ≠ "" ∧ c ≠ "None" then (c, codeKey r.2) :: scanEntries rest
    else scanEntries rest

/-- A code has two entries with distinct banks in an entry list. -/
def AmbigIn (E : List (String × String)) (c : String) : Prop :=
  ∃ b₁ b₂, (c, b₁) ∈ E ∧ (c, b₂) ∈ E ∧ b₁ ≠ b₂

/-- Range token emitted by the run-length encoder: `'<Col><row>'` for a
single row, `'<Col><start>:<Col><end>'` for a run. -/
inductive RangeTok where
  | single (r : Nat)
  | run (s e : Nat)
deriving DecidableEq, Repr

/-- Flush step of the encoder: a width-one run becomes a single token. -/
def flushTok (s e : Nat) : RangeTok :=
  if s = e then RangeTok.single s else RangeTok.run s e

/-- Loop of the range collector in `apply_sum_and_formulas_to_curva_abc` /
`apply_sum_column_i_and_delete_below`: `s`, `e` are the current `start` and
`end` variables, the list holds the remaining `colored_rows`. -/
def collect_ranges_aux (s e : Nat) : List Nat → List RangeTok
  | [] => [flushTok s e]
  | r :: rest =>
    if r = e + 1 then collect_ranges_aux s r rest
    else flushTok s e :: collect_ranges_aux r r rest

/-- Source range collector over a list of colored row indices. -/
def collect_ranges : List Nat → List RangeTok
  | [] => []
  | r :: rest => collect_ranges_aux r r rest

/-- Re-expansion of a token to the row indices it denotes. -/
def expandTok : RangeTok → List Nat
  | RangeTok.single r => [r]
  | RangeTok.run s e => List.range' s (e + 1 - s)

/-- First row covered by a token. -/
def tokStart : RangeTok → Nat
  | RangeTok.single r => r
  | RangeTok.run s _ => s

/-- Last row covered by a token. -/
def tokEnd : RangeTok → Nat
  | RangeTok.single r => r
  | RangeTok.run _ e => e

/-- Excel single-quote character used around sheet names in formulas. -/
def sq : String := "\x27"

/-- Sheet-name reference `'<title>'` used inside cross-sheet formulas. -/
def quoteTitle (t : String) : String := sq ++ t ++ sq

/-- Step 10 INDEX/MATCH formula for an ambiguous code (description-keyed
lookup into the ABC sheet, fallback placeholder text). -/
def cpus_problem_formula (abcT : String) (row : Nat) : String :=
  "=IFERROR(INDEX(" ++ quoteTitle abcT ++ "!$G:$G,MATCH(" ++
  ("D" ++ toString row) ++ "," ++ quoteTitle abcT ++
  "!$C:$C,0)),\"Descrição não encontrada\")"

/-- Step 10 VLOOKUP formula for a non-ambiguous code (code-keyed lookup into
the ABC sheet, fallback placeholder text). -/
def cpus_code_formula (abcT : String) (row : Nat) : String :=
  "=IFERROR(VLOOKUP(" ++ ("B" ++ toString row) ++ "," ++ quoteTitle abcT ++
  "!$A:$G,7,FALSE),\"Código não encontrado\")"

/-- Per-row body of source `apply_fourth_step_cpus_sheet` (step 10): on a
gray column-H cell, write a description-keyed INDEX/MATCH formula when the
row's code is problematic and a code-keyed VLOOKUP otherwise. -/
def apply_fourth_step_row (abcT : String) (probs : List String) (row : Nat)
    (fillH : Option String) (bVal : Option String) : Option String :=
  if get_cell_color fillH = some "EFEFEF" then
    let code := codeKey bVal
    if probs.contains code then some (cpus_problem_formula abcT row)
    else some (cpus_code_formula abcT row)
  else Option.none

/-- Step 17 formula for green rows (VLOOKUP into the CPUs sheet). -/
def sint_green_formula (cpusT : String) (row : Nat) : String :=
  "=IFERROR(VLOOKUP(" ++ ("B" ++ toString row) ++ "," ++ quoteTitle cpusT ++
  "!$B:$H,7,FALSE),0)"

/-- Step 17 INDEX/MATCH formula for an ambiguous code on a yellow row
(description-keyed lookup into the ABC sheet, fallback 0). -/
def sint_problem_formula (abcT : String) (row : Nat) : String :=
  "=IFERROR(INDEX(" ++ quoteTitle abcT ++ "!$G:$G,MATCH(" ++
  ("D" ++ toString row) ++ "," ++ quoteTitle abcT ++ "!$C:$C,0)),0)"

/-- Step 17 VLOOKUP formula for a non-ambiguous code on a yellow row
(code-keyed lookup into the ABC sheet, fallback 0). -/
def sint_code_formula (abcT : String) (row : Nat) : String :=
  "=IFERROR(VLOOKUP(" ++ ("B" ++ toString row) ++ "," ++ quoteTitle abcT ++
  "!$A:$G,7,FALSE),0)"

/-- Per-row body of source `apply_sintetico_step_4` (step 17).  Note the
source takes `str(value).strip()` here without a falsy guard, so an absent
column-B value yields the code `"None"`. -/
def apply_sintetico_step_4_row (cpusT abcT : String) (probs : List String)
    (row : Nat) (fillG : Option String) (bVal : Option String) :
    Option String :=
  if get_cell_color fillG = some "DFF0D8" then
    some (sint_green_formula cpusT row)
  else if get_cell_color fillG = some "F7F3DF" then
    let code := pyStrip (pyStrOfOpt bVal)
    if probs.contains code then some (sint_problem_formula abcT row)
    else some (sint_code_formula abcT row)
  else Option.none

/-- Row of the synthetic sheet as used by the hierarchical aggregator:
raw fill rgb of the column-A cell, and the values of columns A, I, J. -/
structure SRow where
  fillA : Option String
  a : Option String
  i : Option String
  j : Option String
deriving DecidableEq, Repr

/-- Indexing of a row list starting at a given 1-based row number. -/
def enumFrom (i : Nat) : List SRow → List (Nat × SRow)
  | [] => []
  | x :: t => (i, x) :: enumFrom (i + 1) t

/-- Child-collection loop of source `apply_sintetico_sum_hierarchy`: scan the
rows after a parent of level `L`; stop at the first row whose level is not
`-1` and at most `L`; collect the row indices whose level is exactly
`L + 1`. -/
def collect_hierarchy_children (L : Int) : List (Nat × SRow) → List Nat
  | [] => []
  | (idx, r) :: rest =>
    let lv := get_item_level_py r.a
    if lv ≠ -1 ∧ lv ≤ L then []
    else if lv = L + 1 then idx :: collect_hierarchy_children L rest
    else collect_hierarchy_children L rest

/-- SUM formula over the collected child cells of one column, as built by
`','.join(sum_cells)`. -/
def sum_cells_formula (col : String) (rows : List Nat) : String :=
  "=SUM(" ++ String.intercalate "," (rows.map (fun r => col ++ toString r))
  ++ ")"

/-- Effect of `apply_sintetico_sum_hierarchy` on one row: a blue column-A row
with a hierarchy level and a nonempty child collection gets SUM formulas in
columns I and J; every other row is left unchanged. -/
def hier_row_result (r : SRow) (rest : List (Nat × SRow)) : SRow :=
  if get_cell_color r.fillA = some "D8ECF6" then
    let L := get_item_level_py r.a
    if L = -1 then r
    else
      let kids := collect_hierarchy_children L rest
      if kids = [] then r
      else { r with i := some (sum_cells_formula "I" kids),
                    j := some (sum_cells_formula "J" kids) }
  else r

/-- Row-by-row walk of source `apply_sintetico_sum_hierarchy`; `idx` is the
1-based row number of the head row. -/
def apply_hier_aux (idx : Nat) : List SRow → List SRow
  | [] => []
  | r :: rest =>
    hier_row_result r (enumFrom (idx + 1) rest) :: apply_hier_aux (idx + 1) rest

/-- Source `apply_sintetico_sum_hierarchy` over the sheet's rows (row 1 is
the first list element). -/
def apply_sintetico_sum_hierarchy (rows : List SRow) : List SRow :=
  apply_hier_aux 1 rows

/-- Scaling loop for decimal formatting: scale the positive fraction `p / q`
into `[1, 10)` by powers of ten, tracking the decimal exponent. -/
def gScale : Nat → Nat → Nat → Int → Nat × Nat × Int
  | 0, p, q, e => (p, q, e)
  | fuel + 1, p, q, e =>
    if p < q then gScale fuel (p * 10) q (e - 1)
    else if 10 * q ≤ p then gScale fuel p (q * 10) (e + 1)
    else (p, q, e)

/-- Correctly rounded quotient `num / den` with ties to even, as used by
Python's float-to-decimal conversion. -/
def roundHalfEvenFrac (num den : Nat) : Nat :=
  let k := num / den
  let r := num % den
  if 2 * r < den then k
  else if den < 2 * r then k + 1
  else if k % 2 = 0 then k else k + 1

/-- Removal of trailing `'0'` characters from a digit block. -/
def stripZerosR (l : List Char) : List Char :=
  (l.reverse.dropWhile (fun c => c == '0')).reverse

/-- Fixed-point rendering of Python `format(x, 'g')` from the 6 significant
digits `ds` and the decimal exponent `e` (used when `-4 ≤ e < 6`). -/
def gFixed (ds : List Char) (e : Int) : String :=
  if 0 ≤ e then
    let k := e.toNat + 1
    let intPart := ds.take k
    let frac := stripZerosR (ds.drop k)
    if frac = [] then String.mk intPart
    else String.mk intPart ++ "." ++ String.mk frac
  else
    let zs : List Char := List.replicate ((-e).toNat - 1) '0'
    String.mk (['0', '.'] ++ zs ++ stripZerosR ds)

/-- Exponential rendering of Python `format(x, 'g')` (used when the decimal
exponent falls outside `[-4, 6)`). -/
def gExp (ds : List Char) (e : Int) : String :=
  let d0 := ds.take 1
  let rest := stripZerosR (ds.drop 1)
  let mant := if rest = [] then String.mk d0
              else String.mk d0 ++ "." ++ String.mk rest
  let sign := if e < 0 then "-" else "+"
  let eabs := (if e < 0 then -e else e).toNat
  let edigits := Nat.toDigits 10 eabs
  let epad := if edigits.length < 2 then '0' :: edigits else edigits
  mant ++ "e" ++ sign ++ String.mk epad

/-- Python `format(value, 'g')` for the double with exact value `m * 2 ^ e`:
6 significant digits, trailing zeros removed, fixed or exponential notation
by the decimal exponent. -/
def formatG (m e : Int) : String :=
  if m = 0 then "0"
  else
    let p : Nat := if 0 ≤ e then m.natAbs * 2 ^ e.toNat else m.natAbs
    let q : Nat := if 0 ≤ e then 1 else 2 ^ (-e).toNat
    let t := gScale (p + q + 64) p q 0
    let m6 := roundHalfEvenFrac (t.1 * 100000) t.2.1
    let m7 := if 1000000 ≤ m6 then m6 / 10 else m6
    let d := if 1000000 ≤ m6 then t.2.2 + 1 else t.2.2
    let ds := Nat.toDigits 10 m7
    let body := if -4 ≤ d ∧ d < 6 then gFixed ds d else gExp ds d
    if m < 0 then "-" ++ body else body

/-- Python value in the column-A cells handled by
`normalize_sintetico_coluna_a`: `None`, a bool, an int, a float (held
exactly as `m * 2 ^ e`), or text. -/
inductive SintVal where
  | vnone
  | vbool (b : Bool)
  | vint (n : Int)
  | vfloat (m e : Int)
  | vstr (s : String)
deriving DecidableEq, Repr

/-- Python `float.is_integer` for the double `m * 2 ^ e`. -/
def floatIsInteger (m e : Int) : Bool :=
  if 0 ≤ e then true else m % ((2 : Int) ^ (-e).toNat) == 0

/-- Python `int(value)` for an integral double `m * 2 ^ e`. -/
def floatToInt (m e : Int) : Int :=
  if 0 ≤ e then m * 2 ^ e.toNat else m / ((2 : Int) ^ (-e).toNat)

/-- Source `normalize_sintetico_coluna_a`: `None` stays `None`; bools and
ints map to their `str`; an integral float maps to `str(int(value))`, a
non-integral float to `format(value, 'g')`; text drops all spaces and then
turns commas into dots. -/
def normalize_sintetico_coluna_a : SintVal → Option String
  | SintVal.vnone => Option.none
  | SintVal.vbool b => some (if b then "True" else "False")
  | SintVal.vint n => some (toString n)
  | SintVal.vfloat m e =>
    some (if floatIsInteger m e then toString (floatToInt m e)
          else formatG m e)
  | SintVal.vstr s =>
    let t := String.mk (s.data.filter (fun c => c != ' '))
    if t = "" then some ""
    else some (String.mk (t.data.map (fun c => if c = ',' then '.' else c)))

/-! Helper lemmas about the character primitives. -/

theorem char_toNat_ofNat {n : Nat} (h : n < 55296) : (Char.ofNat n).toNat = n := by
  have hv : n.isValidChar := Or.inl h
  simp [Char.ofNat, Char.ofNatAux, hv, Char.toNat, UInt32.toNat]

theorem pyUpper_idem (c : Char) : pyUpper (pyUpper c) = pyUpper c := by
  unfold pyUpper
  split
  · next h =>
    have h32 : c.toNat - 32 < 55296 := by omega
    rw [if_neg]
    rw [char_toNat_ofNat h32]
    omega
  · rfl

theorem pySpace_pyUpper (c : Char) : pySpace (pyUpper c) = pySpace c := by
  unfold pyUpper
  split
  · next h =>
    have h32 : c.toNat - 32 < 55296 := by
      omega
    have lhs : pySpace (Char.ofNat (c.toNat - 32)) = false := by
      simp only [pySpace, char_toNat_ofNat h32, Bool.or_eq_false_iff, beq_eq_false_iff_ne,
        ne_eq]
      omega
    have rhs : pySpace c = false := by
      simp only [pySpace, Bool.or_eq_false_iff, beq_eq_false_iff_ne, ne_eq]
      omega
    rw [lhs, rhs]
  · rfl

theorem upperHex_pyUpper {c : Char} (h : hexDigit c) : upperHexDigit (pyUpper c) := by
  unfold pyUpper
  split
  · next hc =>
    have h32 : c.toNat - 32 < 55296 := by omega
    unfold upperHexDigit
    rw [char_toNat_ofNat h32]
    unfold hexDigit at h
    omega
  · next hc =>
    unfold hexDigit at h
    unfold upperHexDigit
    omega

/-- C8: the column-A normalizer of the synthetic sheet maps the text
`"3 , 2"` to `"3.2"` (spaces removed, comma turned into a dot), the integer
`5` to `"5"`, the integral float `5.0` to `"5"`, and the non-integral float
`5.10` (whose exact double value is `2871044762448691 * 2 ^ (-49)`) to its
general-format rendering, which is `"5.1"`. -/
theorem normalize_sintetico_coluna_a_spec :
    normalize_sintetico_coluna_a (SintVal.vstr "3 , 2") = some "3.2" ∧
    normalize_sintetico_coluna_a (SintVal.vint 5) = some "5" ∧
    normalize_sintetico_coluna_a (SintVal.vfloat 5 0) = some "5" ∧
    floatIsInteger 2871044762448691 (-49) = false ∧
    normalize_sintetico_coluna_a (SintVal.vfloat 2871044762448691 (-49)) =
      some (formatG 2871044762448691 (-49)) ∧
    formatG 2871044762448691 (-49) = "5.1" := by
  refine ⟨by decide, by decide, by decide, by decide, by decide, by decide⟩

theorem str_eq_empty_iff (s : String) : s = "" ↔ s.data = [] := by
  cases s with
  | mk d => constructor
            · intro h
              rw [h]
            · intro h
              rw [show d = ([] : List Char) from h]

theorem pyStripList_eq_nil_iff (l : List Char) :
    pyStripList l = [] ↔ ∀ c ∈ l, pySpace c = true := by
  unfold pyStripList dropTrail dropLead
  rw [List.reverse_eq_nil_iff, List.dropWhile_eq_nil_iff]
  constructor
  · intro h c hc
    rcases List.mem_append.mp
      ((List.takeWhile_append_dropWhile pySpace l) ▸ hc) with h1 | h2
    · exact List.mem_takeWhile_imp h1
    · exact h c (List.mem_reverse.mpr h2)
  · intro h c hc
    exact h c ((List.dropWhile_sublist pySpace).subset (List.mem_reverse.mp hc))

theorem mem_of_mem_pyStripList {l : List Char} {c : Char}
    (h : c ∈ pyStripList l) : c ∈ l := by
  unfold pyStripList dropTrail dropLead at h
  exact (List.dropWhile_sublist pySpace).subset
    (List.mem_reverse.mp ((List.dropWhile_sublist pySpace).subset
      (List.mem_reverse.mp (by simpa using h))))

/-- C10: whenever `get_cell_color` returns a color it is a 6-character
string, uppercase-hexadecimal when the source rgb was hexadecimal; an
8-character rgb yields its last 6 characters uppercased, a 6-character rgb
yields itself uppercased, and any other length yields `none`. -/
theorem get_cell_color_shape (v : Option String) :
    (∀ s, get_cell_color v = some s →
      s.length = 6 ∧
      ((∀ c ∈ (v.getD "").data, hexDigit c) → ∀ c ∈ s.data, upperHexDigit c)) ∧
    (∀ t, v = some t → t.length ≠ 8 → t.length ≠ 6 →
      get_cell_color v = Option.none) ∧
    (∀ t, v = some t → t ≠ "" → t.length = 8 →
      get_cell_color v = some (struper (strdrop 2 t))) ∧
    (∀ t, v = some t → t ≠ "" → t.length = 6 →
      get_cell_color v = some (struper t)) := by
  cases v with
  | none =>
    refine ⟨?_, ?_, ?_, ?_⟩ <;> simp [get_cell_color]
  | some t =>
    have hmem : ∀ (l : List Char), (∀ c ∈ t.data, hexDigit c) →
        l.Subset t.data → ∀ c ∈ l.map pyUpper, upperHexDigit c := by
      intro l hall hsub c hc
      rcases List.mem_map.mp hc with ⟨a, ha, rfl⟩
      exact upperHex_pyUpper (hall a (hsub ha))
    refine ⟨?_, ?_, ?_, ?_⟩
    · intro s hs
      by_cases h0 : t = ""
      · simp [get_cell_color, h0] at hs
      · by_cases h8 : t.length = 8
        · have hs' : s = struper (strdrop 2 t) := by
            simp [get_cell_color, h0, h8] at hs
            exact hs.symm
          subst hs'
          constructor
          · show ((t.data.drop 2).map pyUpper).length = 6
            rw [List.length_map, List.length_drop]
            have : t.data.length = 8 := h8
            omega
          · intro hall
            exact hmem _ hall (List.drop_subset 2 t.data)
        · by_cases h6 : t.length = 6
          · have hs' : s = struper t := by
              simp [get_cell_color, h0, h8, h6] at hs
              exact hs.symm
            subst hs'
            constructor
            · show (t.data.map pyUpper).length = 6
              rw [List.length_map]
              exact h6
            · intro hall
              exact hmem _ hall (fun _ h => h)
          · simp [get_cell_color, h0, h8, h6] at hs
    · intro u hu h8 h6
      cases hu
      by_cases h0 : t = "" <;> simp [get_cell_color, h0, h8, h6]
    · intro u hu h0 h8
      cases hu
      simp [get_cell_color, h0, h8]
    · intro u hu h0 h6
      cases hu
      by_cases h8 : t.length = 8
      · omega
      · simp [get_cell_color, h0, h8, h6]

theorem get_cell_color_shape_witness :
    (("00AA11" : String).length = 6 ∧
      (∀ c ∈ ("00AA11" : String).data, upperHexDigit c)) ∧
    get_cell_color (some "0BC") = Option.none ∧
    get_cell_color (some "ff00aa11") = some (struper (strdrop 2 "ff00aa11")) ∧
    get_cell_color (some "d8ecf6") = some (struper "d8ecf6") := by
  refine ⟨?_, ?_, ?_, ?_⟩
  · have h := ((get_cell_color_shape (some "ff00aa11")).1) "00AA11" (by decide)
    exact ⟨h.1, h.2 (by decide)⟩
  · exact (get_cell_color_shape (some "0BC")).2.1 "0BC" rfl (by decide) (by decide)
  · exact (get_cell_color_shape (some "ff00aa11")).2.2.1 "ff00aa11" rfl
      (by decide) (by decide)
  · exact (get_cell_color_shape (some "d8ecf6")).2.2.2 "d8ecf6" rfl
      (by decide) (by decide)

/-- C7: on the text-or-empty cell values it receives, `get_item_level_py`
returns `-1` exactly for an absent value, the empty string, or
whitespace-only text, and otherwise returns the number of dots in the
stripped text plus one, which is at least 1; in particular `"3.2.1"` has
level 3. -/
theorem get_item_level_py_spec (v : Option String) :
    (get_item_level_py v = -1 ↔
      (v = Option.none ∨ ∃ s, v = some s ∧ ∀ c ∈ s.data, pySpace c = true)) ∧
    (∀ s, v = some s → (∃ c ∈ s.data, pySpace c = false) →
      get_item_level_py v =
        ((pyStrip s).data.countP (fun c => c == '.') : Int) + 1 ∧
      1 ≤ get_item_level_py v) ∧
    get_item_level_py (some "3.2.1") = 3 := by
  refine ⟨?_, ?_, by decide⟩
  · cases v with
    | none => simp [get_item_level_py]
    | some s =>
      simp only [get_item_level_py, Option.some.injEq, reduceCtorEq, false_or]
      by_cases h0 : s = ""
      · subst h0
        simp
      · rw [if_neg h0]
        by_cases hb : pyStrip s = ""
        · rw [if_pos hb]
          have hall : ∀ c ∈ s.data, pySpace c = true :=
            (pyStripList_eq_nil_iff s.data).mp ((str_eq_empty_iff _).mp hb)
          constructor
          · intro _
            exact ⟨s, rfl, hall⟩
          · intro _
            rfl
        · rw [if_neg hb]
          constructor
          · intro h
            omega
          · rintro ⟨u, hu, hall⟩
            cases hu
            exact absurd ((str_eq_empty_iff _).mpr
              ((pyStripList_eq_nil_iff s.data).mpr hall)) hb
  · rintro s rfl ⟨c, hc, hcs⟩
    have h0 : s ≠ "" := by
      intro h
      rw [(str_eq_empty_iff s).mp h] at hc
      exact absurd hc (List.not_mem_nil c)
    have hb : pyStrip s ≠ "" := by
      intro h
      have := (pyStripList_eq_nil_iff s.data).mp ((str_eq_empty_iff _).mp h)
      rw [this c hc] at hcs
      exact Bool.true_eq_false.mp hcs
    constructor
    · simp [get_item_level_py, h0, hb]
    · simp only [get_item_level_py, h0, hb, if_neg, if_false]
      omega

theorem get_item_level_py_spec_witness :
    get_item_level_py (some " 3.2.1 ") =
      ((pyStrip " 3.2.1 ").data.countP (fun c => c == '.') : Int) + 1 ∧
    1 ≤ get_item_level_py (some " 3.2.1 ") := by
  exact (get_item_level_py_spec (some " 3.2.1 ")).2.1 " 3.2.1 " rfl
    ⟨'3', by decide, by decide⟩

/-- C4: on a gray-H row of the CPUs sheet (step 10) and on a yellow-G row of
the synthetic sheet (step 17), an ambiguous code receives the
description-keyed INDEX/MATCH formula against the ABC sheet and any other
code the code-keyed VLOOKUP formula against the ABC sheet, and each of the
four emitted formulas is IFERROR-wrapped with fallback `0` or an explanatory
placeholder string. -/
theorem lookup_strategy_formulas (abcT cpusT : String) (probs : List String)
    (row : Nat) (bv fillH fillG : Option String)
    (hH : get_cell_color fillH = some "EFEFEF")
    (hG : get_cell_color fillG = some "F7F3DF") :
    apply_fourth_step_row abcT probs row fillH bv =
      some (if codeKey bv ∈ probs then cpus_problem_formula abcT row
            else cpus_code_formula abcT row) ∧
    apply_sintetico_step_4_row cpusT abcT probs row fillG bv =
      some (if pyStrip (pyStrOfOpt bv) ∈ probs then
              sint_problem_formula abcT row
            else sint_code_formula abcT row) ∧
    (∃ inner, cpus_problem_formula abcT row =
      "=IFERROR(" ++ inner ++ ("," ++ ("\"Descrição não encontrada\"" ++ ")"))) ∧
    (∃ inner, cpus_code_formula abcT row =
      "=IFERROR(" ++ inner ++ ("," ++ ("\"Código não encontrado\"" ++ ")"))) ∧
    (∃ inner, sint_problem_formula abcT row =
      "=IFERROR(" ++ inner ++ ("," ++ ("0" ++ ")"))) ∧
    (∃ inner, sint_code_formula abcT row =
      "=IFERROR(" ++ inner ++ ("," ++ ("0" ++ ")"))) := by
  refine ⟨?_, ?_, ?_, ?_, ?_, ?_⟩
  · by_cases hm : codeKey bv ∈ probs <;>
      simp [apply_fourth_step_row, hH, hm, List.contains, List.elem_iff]
  · by_cases hm : pyStrip (pyStrOfOpt bv) ∈ probs <;>
      simp [apply_sintetico_step_4_row, hG, hm, List.contains, List.elem_iff]
  · refine ⟨"INDEX(" ++ quoteTitle abcT ++ "!$G:$G,MATCH(" ++
      ("D" ++ toString row) ++ "," ++ quoteTitle abcT ++ "!$C:$C,0))", ?_⟩
    apply String.ext
    simp [cpus_problem_formula, quoteTitle, String.data_append, List.append_assoc]
  · refine ⟨"VLOOKUP(" ++ ("B" ++ toString row) ++ "," ++ quoteTitle abcT ++
      "!$A:$G,7,FALSE)", ?_⟩
    apply String.ext
    simp [cpus_code_formula, quoteTitle, String.data_append, List.append_assoc]
  · refine ⟨"INDEX(" ++ quoteTitle abcT ++ "!$G:$G,MATCH(" ++
      ("D" ++ toString row) ++ "," ++ quoteTitle abcT ++ "!$C:$C,0))", ?_⟩
    apply String.ext
    simp [sint_problem_formula, quoteTitle, String.data_append, List.append_assoc]
  · refine ⟨"VLOOKUP(" ++ ("B" ++ toString row) ++ "," ++ quoteTitle abcT ++
      "!$A:$G,7,FALSE)", ?_⟩
    apply String.ext
    simp [sint_code_formula, quoteTitle, String.data_append, List.append_assoc]

theorem lookup_strategy_formulas_witness :
    apply_fourth_step_row "Curva ABC de Insumos" ["X1"] 7 (some "EFEFEF")
        (some " X1 ") =
      some (if codeKey (some " X1 ") ∈ ["X1"] then
              cpus_problem_formula "Curva ABC de Insumos" 7
            else cpus_code_formula "Curva ABC de Insumos" 7) ∧
    apply_sintetico_step_4_row "CPUs" "Curva ABC de Insumos" ["X1"] 7
        (some "F7F3DF") (some "Z") =
      some (if pyStrip (pyStrOfOpt (some "Z")) ∈ ["X1"] then
              sint_problem_formula "Curva ABC de Insumos" 7
            else sint_code_formula "Curva ABC de Insumos" 7) := by
  have h := lookup_strategy_formulas "Curva ABC de Insumos" "CPUs" ["X1"] 7
    (some " X1 ") (some "EFEFEF") (some "F7F3DF") (by decide) (by decide)
  have h2 := lookup_strategy_formulas "Curva ABC de Insumos" "CPUs" ["X1"] 7
    (some "Z") (some "EFEFEF") (some "F7F3DF") (by decide) (by decide)
  exact ⟨h.1, h2.2.1⟩

/-- C5 counterexample: code comparison in the scan and in step 10 is not
performed on the trim-collapse-uppercase normal form the claim states.  The
codes `"a"` and `"A"` (and `"B 1"` and `"B  1"`) share that normal form yet
are treated as distinct: paired with different banks they are not flagged as
problematic, and a gray row whose code differs from a problematic entry only
by case gets the plain VLOOKUP formula. -/
theorem code_comparison_not_normalized :
    spec_code_normal_form "a" = spec_code_normal_form "A" ∧
    find_problematic_abc_codes [(some "a", some "X"), (some "A", some "Y")] = [] ∧
    spec_code_normal_form "B 1" = spec_code_normal_form "B  1" ∧
    find_problematic_abc_codes
      [(some "B 1", some "X"), (some "B  1", some "Y")] = [] ∧
    apply_fourth_step_row "Curva ABC de Insumos" ["A"] 2 (some "EFEFEF")
        (some "a") =
      some (cpus_code_formula "Curva ABC de Insumos" 2) := by
  refine ⟨by decide, by decide, by decide, by decide, by decide⟩

theorem dropWhile_append_of_all {p : Char → Bool} {w : List Char}
    (h : ∀ c ∈ w, p c = true) (y : List Char) :
    List.dropWhile p (w ++ y) = List.dropWhile p y := by
  induction w with
  | nil => rfl
  | cons c t ih =>
    have hc : p c = true := h c (List.mem_cons_self c t)
    simp only [List.cons_append, List.dropWhile_cons, hc, if_true]
    exact ih (fun x hx => h x (List.mem_cons_of_mem c hx))

theorem dropWhile_append_left {p : Char → Bool} (l w : List Char)
    (h : List.dropWhile p l ≠ []) :
    List.dropWhile p (l ++ w) = List.dropWhile p l ++ w := by
  induction l with
  | nil => exact absurd rfl h
  | cons c t ih =>
    by_cases hc : p c = true
    · simp only [List.cons_append, List.dropWhile_cons, hc, if_true]
      simp only [List.dropWhile_cons, hc, if_true] at h
      exact ih h
    · simp only [List.cons_append, List.dropWhile_cons, hc]
      simp

theorem pyStripList_pad {w₁ w₂ : List Char}
    (h₁ : ∀ c ∈ w₁, pySpace c = true) (h₂ : ∀ c ∈ w₂, pySpace c = true)
    (l : List Char) : pyStripList (w₁ ++ l ++ w₂) = pyStripList l := by
  unfold pyStripList dropTrail dropLead
  rw [List.append_assoc, dropWhile_append_of_all h₁]
  by_cases hl : List.dropWhile pySpace l = []
  · rw [dropWhile_append_of_all ((List.dropWhile_eq_nil_iff).mp hl), hl]
    rw [show List.dropWhile pySpace w₂ = [] from List.dropWhile_eq_nil_iff.mpr h₂]
  · rw [dropWhile_append_left l w₂ hl, List.reverse_append,
      dropWhile_append_of_all (fun c hc => h₂ c (List.mem_reverse.mp hc))]

theorem codeKey_some (s : String) : codeKey (some s) = pyStrip s := by
  by_cases h : s = ""
  · subst h
    decide
  · simp [codeKey, h]

/-- C5 amended: the scan and the lookup-strategy selection compare codes on
the `str.strip()` trimmed form only: surrounding whitespace is ignored, but
internal whitespace runs and letter case are preserved (see the
counterexample for the latter). -/
theorem code_comparison_trim_only (s : String) (w₁ w₂ : List Char)
    (b : Option String) (rows : List (Option String × Option String))
    (abcT : String) (probs : List String) (row : Nat)
    (h₁ : ∀ c ∈ w₁, pySpace c = true) (h₂ : ∀ c ∈ w₂, pySpace c = true) :
    codeKey (some (String.mk (w₁ ++ s.data ++ w₂))) = codeKey (some s) ∧
    find_problematic_abc_codes
        ((some (String.mk (w₁ ++ s.data ++ w₂)), b) :: rows) =
      find_problematic_abc_codes ((some s, b) :: rows) ∧
    apply_fourth_step_row abcT probs row (some "EFEFEF")
        (some (String.mk (w₁ ++ s.data ++ w₂))) =
      apply_fourth_step_row abcT probs row (some "EFEFEF") (some s) := by
  have hk : codeKey (some (String.mk (w₁ ++ s.data ++ w₂))) = codeKey (some s) := by
    rw [codeKey_some, codeKey_some]
    show String.mk (pyStripList (String.mk (w₁ ++ s.data ++ w₂)).data) = _
    rw [show (String.mk (w₁ ++ s.data ++ w₂)).data = w₁ ++ s.data ++ w₂ from rfl,
      pyStripList_pad h₁ h₂]
    rfl
  refine ⟨hk, ?_, ?_⟩
  · show fpcAux [] [] _ = fpcAux [] [] _
    simp only [fpcAux, hk]
  · simp only [apply_fourth_step_row, hk]

theorem code_comparison_trim_only_witness :
    codeKey (some (String.mk ([' '] ++ ("X1" : String).data ++ [' ', '\t']))) =
      codeKey (some "X1") ∧
    find_problematic_abc_codes
        ((some (String.mk ([' '] ++ ("X1" : String).data ++ [' ', '\t'])),
          some "B") :: [(some "X1", some "C")]) =
      find_problematic_abc_codes ((some "X1", some "B") ::
        [(some "X1", some "C")]) ∧
    apply_fourth_step_row "Curva ABC de Insumos" ["X1"] 2 (some "EFEFEF")
        (some (String.mk ([' '] ++ ("X1" : String).data ++ [' ', '\t']))) =
      apply_fourth_step_row "Curva ABC de Insumos" ["X1"] 2 (some "EFEFEF")
        (some "X1") := by
  exact code_comparison_trim_only "X1" [' '] [' ', '\t'] (some "B")
    [(some "X1", some "C")] "Curva ABC de Insumos" ["X1"] 2
    (by decide) (by decide)

theorem tokStart_flushTok (s e : Nat) : tokStart (flushTok s e) = s := by
  unfold flushTok
  split <;> rfl

theorem tokEnd_flushTok (s e : Nat) : s = e ∨ True → tokEnd (flushTok s e) = e := by
  intro _
  unfold flushTok
  split
  · next heq => exact heq
  · rfl

theorem expandTok_flushTok (s e : Nat) (h : s ≤ e) :
    expandTok (flushTok s e) = List.range' s (e + 1 - s) := by
  unfold flushTok
  split
  · next heq =>
    subst heq
    rw [show s + 1 - s = 1 by omega, List.range'_one]
    rfl
  · rfl

theorem range_one_concat (s n : Nat) :
    List.range' s (n + 1) = List.range' s n ++ [s + n] := by
  induction n generalizing s with
  | zero => rfl
  | succ n ih =>
    show s :: List.range' (s + 1) (n + 1) = (s :: List.range' (s + 1) n) ++ _
    rw [ih (s + 1)]
    rw [show s + 1 + n = s + (n + 1) by omega]
    rfl

theorem collect_ranges_aux_cons_eq (s e r : Nat) (rest : List Nat)
    (h : r = e + 1) :
    collect_ranges_aux s e (r :: rest) = collect_ranges_aux s r rest := by
  subst h
  simp [collect_ranges_aux]

theorem collect_ranges_aux_cons_ne (s e r : Nat) (rest : List Nat)
    (h : r ≠ e + 1) :
    collect_ranges_aux s e (r :: rest) =
      flushTok s e :: collect_ranges_aux r r rest := by
  simp [collect_ranges_aux, h]

theorem collect_ranges_aux_spec (rest : List Nat) : ∀ s e : Nat, s ≤ e →
    List.Chain' (· < ·) (e :: rest) →
    ((collect_ranges_aux s e rest).flatMap expandTok =
        List.range' s (e + 1 - s) ++ rest) ∧
    (∀ t ∈ collect_ranges_aux s e rest, tokStart t ≤ tokEnd t) ∧
    List.Chain' (fun a b => tokEnd a + 1 < tokStart b)
      (collect_ranges_aux s e rest) ∧
    (∃ hd tl, collect_ranges_aux s e rest = hd :: tl ∧ tokStart hd = s) := by
  induction rest with
  | nil =>
    intro s e hse _
    refine ⟨?_, ?_, ?_, ⟨flushTok s e, [], rfl, tokStart_flushTok s e⟩⟩
    · show expandTok (flushTok s e) ++ [] = _
      rw [expandTok_flushTok s e hse, List.append_nil]
    · intro t ht
      rw [List.mem_singleton.mp ht, tokStart_flushTok,
        tokEnd_flushTok s e (Or.inr trivial)]
      exact hse
    · exact List.chain'_singleton _
  | cons r rest' ih =>
    intro s e hse hch
    rw [List.chain'_cons] at hch
    obtain ⟨her, hch'⟩ := hch
    by_cases hr : r = e + 1
    · subst hr
      rw [collect_ranges_aux_cons_eq s e (e + 1) rest' rfl]
      obtain ⟨ha, hb, hc, hd⟩ := ih s (e + 1) (by omega) hch'
      refine ⟨?_, hb, hc, hd⟩
      rw [ha]
      have hconc : List.range' s (e + 1 + 1 - s) =
          List.range' s (e + 1 - s) ++ [e + 1] := by
        have h1 := range_one_concat s (e + 1 - s)
        rw [show s + (e + 1 - s) = e + 1 by omega] at h1
        rw [show e + 1 + 1 - s = e + 1 - s + 1 by omega, h1]
      rw [hconc, List.append_assoc]
      rfl
    · rw [collect_ranges_aux_cons_ne s e r rest' hr]
      obtain ⟨ha, hb, hc, hd⟩ := ih r r (le_refl r) hch'
      obtain ⟨hd0, tl0, heq0, hstart0⟩ := hd
      refine ⟨?_, ?_, ?_, ⟨flushTok s e, _, rfl, tokStart_flushTok s e⟩⟩
      · rw [List.flatMap_cons, ha, expandTok_flushTok s e hse]
        congr 1
        rw [show r + 1 - r = 1 by omega, List.range'_one]
        rfl
      · intro t ht
        rcases List.mem_cons.mp ht with h | h
        · rw [h, tokStart_flushTok, tokEnd_flushTok s e (Or.inr trivial)]
          exact hse
        · exact hb t h
      · rw [heq0]
        rw [List.chain'_cons]
        refine ⟨?_, heq0 ▸ hc⟩
        rw [tokEnd_flushTok s e (Or.inr trivial), hstart0]
        omega

/-- C1: for every strictly sorted list of row indices, re-expanding the
emitted range tokens reproduces exactly the input rows, every token covers a
well-formed range, and no two adjacent tokens describe touching ranges (so
every run is maximal). -/
theorem collect_ranges_correct (l : List Nat) (h : List.Chain' (· < ·) l) :
    ((collect_ranges l).flatMap expandTok = l) ∧
    (∀ t ∈ collect_ranges l, tokStart t ≤ tokEnd t) ∧
    List.Chain' (fun a b => tokEnd a + 1 < tokStart b) (collect_ranges l) := by
  cases l with
  | nil => exact ⟨rfl, fun t ht => absurd ht (List.not_mem_nil t), List.chain'_nil⟩
  | cons r rest =>
    obtain ⟨ha, hb, hc, _⟩ := collect_ranges_aux_spec rest r r (le_refl r) h
    refine ⟨?_, hb, hc⟩
    rw [show collect_ranges (r :: rest) = collect_ranges_aux r r rest from rfl, ha]
    rw [show r + 1 - r = 1 by omega, List.range'_one]
    rfl

theorem collect_ranges_correct_witness :
    ((collect_ranges [2, 3, 4, 7, 9, 10]).flatMap expandTok =
      [2, 3, 4, 7, 9, 10]) ∧
    (∀ t ∈ collect_ranges [2, 3, 4, 7, 9, 10], tokStart t ≤ tokEnd t) ∧
    List.Chain' (fun a b => tokEnd a + 1 < tokStart b)
      (collect_ranges [2, 3, 4, 7, 9, 10]) := by
  refine collect_ranges_correct [2, 3, 4, 7, 9, 10] ?_
  refine List.Chain'.cons (by omega) ?_
  refine List.Chain'.cons (by omega) ?_
  refine List.Chain'.cons (by omega) ?_
  refine List.Chain'.cons (by omega) ?_
  refine List.Chain'.cons (by omega) ?_
  exact List.chain'_singleton _

theorem get_item_level_py_dichotomy (v : Option String) :
    get_item_level_py v = -1 ∨ 1 ≤ get_item_level_py v := by
  cases v with
  | none => exact Or.inl rfl
  | some s =>
    simp only [get_item_level_py]
    by_cases h0 : s = ""
    · rw [if_pos h0]
      exact Or.inl rfl
    · rw [if_neg h0]
      by_cases hb : pyStrip s = ""
      · rw [if_pos hb]
        exact Or.inl rfl
      · rw [if_neg hb]
        right
        omega

theorem chc_cons_stop (L : Int) (idx : Nat) (r : SRow) (rest : List (Nat × SRow))
    (h : get_item_level_py r.a ≠ -1 ∧ get_item_level_py r.a ≤ L) :
    collect_hierarchy_children L ((idx, r) :: rest) = [] := by
  simp only [collect_hierarchy_children]
  rw [if_pos h]

theorem chc_cons_child (L : Int) (idx : Nat) (r : SRow) (rest : List (Nat × SRow))
    (h : ¬(get_item_level_py r.a ≠ -1 ∧ get_item_level_py r.a ≤ L))
    (hc : get_item_level_py r.a = L + 1) :
    collect_hierarchy_children L ((idx, r) :: rest) =
      idx :: collect_hierarchy_children L rest := by
  simp only [collect_hierarchy_children]
  rw [if_neg h, if_pos hc]

theorem chc_cons_skip (L : Int) (idx : Nat) (r : SRow) (rest : List (Nat × SRow))
    (h : ¬(get_item_level_py r.a ≠ -1 ∧ get_item_level_py r.a ≤ L))
    (hc : get_item_level_py r.a ≠ L + 1) :
    collect_hierarchy_children L ((idx, r) :: rest) =
      collect_hierarchy_children L rest := by
  simp only [collect_hierarchy_children]
  rw [if_neg h, if_neg hc]

/-- C3: the child collection of a parent at level `L` consists of exactly
the subsequent rows whose level is `L + 1`, among the rows before the first
one whose level is between 0 and `L`; on the level sequence
`[1, 2, 2, 3, 1]` the level-1 parent at row 1 collects rows 2 and 3 only,
and the level-1 row at row 5 collects nothing. -/
theorem hierarchy_children_spec (L : Int) (rows : List (Nat × SRow)) :
    collect_hierarchy_children L rows =
      ((rows.takeWhile (fun r =>
          !(decide (0 ≤ get_item_level_py r.2.a ∧
                    get_item_level_py r.2.a ≤ L)))).filter
        (fun r => get_item_level_py r.2.a == L + 1)).map Prod.fst ∧
    collect_hierarchy_children 1
      (enumFrom 2 [⟨some "F7F3DF", some "1.1", Option.none, Option.none⟩,
                   ⟨some "F7F3DF", some "1.2", Option.none, Option.none⟩,
                   ⟨some "F7F3DF", some "1.1.1", Option.none, Option.none⟩,
                   ⟨some "D8ECF6", some "2", Option.none, Option.none⟩]) =
      [2, 3] ∧
    collect_hierarchy_children 1 (enumFrom 6 ([] : List SRow)) = [] := by
  refine ⟨?_, by decide, by decide⟩
  induction rows with
  | nil => rfl
  | cons p rest ih =>
    obtain ⟨idx, r⟩ := p
    have hdich := get_item_level_py_dichotomy r.a
    by_cases hstop : get_item_level_py r.a ≠ -1 ∧ get_item_level_py r.a ≤ L
    · rw [chc_cons_stop L idx r rest hstop]
      have hb : (!(decide (0 ≤ get_item_level_py r.a ∧
          get_item_level_py r.a ≤ L))) = false := by
        have hp : 0 ≤ get_item_level_py r.a ∧ get_item_level_py r.a ≤ L := by
          refine ⟨?_, hstop.2⟩
          rcases hdich with h | h
          · exact absurd h hstop.1
          · omega
        rw [decide_eq_true hp]
        rfl
      rw [List.takeWhile_cons, hb]
      rfl
    · have hb : (!(decide (0 ≤ get_item_level_py r.a ∧
          get_item_level_py r.a ≤ L))) = true := by
        have hp : ¬(0 ≤ get_item_level_py r.a ∧ get_item_level_py r.a ≤ L) := by
          intro hcontra
          exact hstop ⟨by omega, hcontra.2⟩
        rw [decide_eq_false hp]
        rfl
      rw [List.takeWhile_cons, hb]
      by_cases hc : get_item_level_py r.a = L + 1
      · rw [chc_cons_child L idx r rest hstop hc]
        rw [if_pos rfl]
        rw [List.filter_cons_of_pos (by simpa using hc), List.map_cons, ih]
      · rw [chc_cons_skip L idx r rest hstop hc]
        rw [if_pos rfl]
        rw [List.filter_cons_of_neg (by simpa using hc), ih]

theorem apply_hier_aux_length (rows : List SRow) : ∀ idx : Nat,
    (apply_hier_aux idx rows).length = rows.length := by
  induction rows with
  | nil => intro idx; rfl
  | cons r rest ih =>
    intro idx
    show (apply_hier_aux idx (r :: rest)).length = rest.length + 1
    rw [show apply_hier_aux idx (r :: rest) =
      hier_row_result r (enumFrom (idx + 1) rest) :: apply_hier_aux (idx + 1) rest
      from rfl]
    show (apply_hier_aux (idx + 1) rest).length + 1 = rest.length + 1
    rw [ih (idx + 1)]

theorem apply_hier_aux_get? (rows : List SRow) : ∀ idx k : Nat,
    (apply_hier_aux idx rows).get? k = (rows.get? k).map (fun r =>
      hier_row_result r (enumFrom (idx + k + 1) (rows.drop (k + 1)))) := by
  induction rows with
  | nil => intro idx k; rfl
  | cons r rest ih =>
    intro idx k
    cases k with
    | zero => rfl
    | succ k =>
      show (apply_hier_aux (idx + 1) rest).get? k = _
      rw [ih (idx + 1) k]
      show _ = (rest.get? k).map (fun r =>
        hier_row_result r (enumFrom (idx + (k + 1) + 1) (rest.drop (k + 1))))
      rw [show idx + 1 + k + 1 = idx + (k + 1) + 1 by omega]

/-- C6: a blue parent row with a hierarchy level whose forward scan collects
no children is left entirely unchanged by the hierarchical-sum stage — its
columns I and J keep their prior values (and the stage preserves the sheet's
length). -/
theorem hierarchy_parent_no_children_frame (rows : List SRow) (k : Nat)
    (r : SRow) (hr : rows.get? k = some r)
    (hblue : get_cell_color r.fillA = some "D8ECF6")
    (hlev : get_item_level_py r.a ≠ -1)
    (hkids : collect_hierarchy_children (get_item_level_py r.a)
      (enumFrom (k + 2) (rows.drop (k + 1))) = []) :
    (apply_sintetico_sum_hierarchy rows).get? k = some r ∧
    (apply_sintetico_sum_hierarchy rows).length = rows.length := by
  constructor
  · show (apply_hier_aux 1 rows).get? k = some r
    rw [apply_hier_aux_get? rows 1 k, hr]
    show some (hier_row_result r (enumFrom (1 + k + 1) (rows.drop (k + 1)))) = _
    rw [show 1 + k + 1 = k + 2 by omega]
    unfold hier_row_result
    rw [if_pos hblue, if_neg hlev, if_pos hkids]
  · exact apply_hier_aux_length rows 1

theorem hierarchy_parent_no_children_frame_witness :
    (apply_sintetico_sum_hierarchy
        [⟨some "F7F3DF", some "1", Option.none, Option.none⟩,
         ⟨some "D8ECF6", some "2", some "x", some "y"⟩]).get? 1 =
      some ⟨some "D8ECF6", some "2", some "x", some "y"⟩ ∧
    (apply_sintetico_sum_hierarchy
        [⟨some "F7F3DF", some "1", Option.none, Option.none⟩,
         ⟨some "D8ECF6", some "2", some "x", some "y"⟩]).length = 2 := by
  exact hierarchy_parent_no_children_frame
    [⟨some "F7F3DF", some "1", Option.none, Option.none⟩,
     ⟨some "D8ECF6", some "2", some "x", some "y"⟩] 1
    ⟨some "D8ECF6", some "2", some "x", some "y"⟩
    (by decide) (by decide) (by decide) (by decide)

theorem firstBank_append (H H' : List (String × String)) (c : String) :
    firstBank (H ++ H') c =
      match firstBank H c with
      | some b => some b
      | Option.none => firstBank H' c := by
  induction H with
  | nil => rfl
  | cons e t ih =>
    show firstBank (e :: (t ++ H')) c = _
    by_cases h : e.1 = c
    · simp only [firstBank, if_pos h]
    · simp only [firstBank, if_neg h, ih]

theorem firstBank_eq_none_iff (H : List (String × String)) (c : String) :
    firstBank H c = Option.none ↔ ∀ b, (c, b) ∉ H := by
  induction H with
  | nil => simp [firstBank]
  | cons e t ih =>
    by_cases h : e.1 = c
    · simp only [firstBank, if_pos h]
      constructor
      · intro hc
        cases hc
      · intro hall
        exfalso
        refine hall e.2 ?_
        have he : (c, e.2) = e := by
          rw [← h]
        rw [he]
        exact List.mem_cons_self e t
    · simp only [firstBank, if_neg h, ih]
      constructor
      · intro hall b hb
        rcases List.mem_cons.mp hb with heq | hmem
        · refine absurd ?_ h
          rw [← heq]
        · exact hall b hmem
      · intro hall b hb
        exact hall b (List.mem_cons_of_mem _ hb)

theorem firstBank_mem {H : List (String × String)} {c b : String}
    (h : firstBank H c = some b) : (c, b) ∈ H := by
  induction H with
  | nil => cases h
  | cons e t ih =>
    obtain ⟨e1, e2⟩ := e
    by_cases he : e1 = c
    · simp only [firstBank, if_pos he] at h
      rw [Option.some.injEq] at h
      rw [← he, ← h]
      exact List.mem_cons_self _ t
    · simp only [firstBank, if_neg he] at h
      exact List.mem_cons_of_mem _ (ih h)

theorem mem_pair_append_singleton {H : List (String × String)}
    {c b d b0 : String} :
    (c, b) ∈ H ++ [(d, b0)] ↔ (c, b) ∈ H ∨ (c = d ∧ b = b0) := by
  simp [List.mem_append, Prod.mk.injEq]

theorem ambigIn_append_singleton_ne {H : List (String × String)}
    {c d b0 : String} (hne : c ≠ d) :
    AmbigIn (H ++ [(d, b0)]) c ↔ AmbigIn H c := by
  constructor
  · rintro ⟨b₁, b₂, h₁, h₂, hb⟩
    rcases mem_pair_append_singleton.mp h₁ with h₁' | ⟨hc, _⟩
    · rcases mem_pair_append_singleton.mp h₂ with h₂' | ⟨hc, _⟩
      · exact ⟨b₁, b₂, h₁', h₂', hb⟩
      · exact absurd hc hne
    · exact absurd hc hne
  · rintro ⟨b₁, b₂, h₁, h₂, hb⟩
    exact ⟨b₁, b₂, List.mem_append_left _ h₁, List.mem_append_left _ h₂, hb⟩

theorem ambigIn_append_singleton_self {H : List (String × String)}
    {c b0 : String} (hnone : ∀ b, (c, b) ∉ H) :
    AmbigIn (H ++ [(c, b0)]) c ↔ AmbigIn H c := by
  constructor
  · rintro ⟨b₁, b₂, h₁, h₂, hb⟩
    rcases mem_pair_append_singleton.mp h₁ with h₁' | ⟨_, hb1⟩
    · exact absurd h₁' (hnone b₁)
    · rcases mem_pair_append_singleton.mp h₂ with h₂' | ⟨_, hb2⟩
      · exact absurd h₂' (hnone b₂)
      · exact absurd (hb1.trans hb2.symm) hb
  · rintro ⟨b₁, _, h₁, _, _⟩
    exact absurd h₁ (hnone b₁)

theorem ambigIn_append_singleton_dup {H : List (String × String)}
    {c b0 : String} (hmem : (c, b0) ∈ H) :
    AmbigIn (H ++ [(c, b0)]) c ↔ AmbigIn H c := by
  constructor
  · rintro ⟨b₁, b₂, h₁, h₂, hb⟩
    rcases mem_pair_append_singleton.mp h₁ with h₁' | ⟨_, hb1⟩
    · rcases mem_pair_append_singleton.mp h₂ with h₂' | ⟨_, hb2⟩
      · exact ⟨b₁, b₂, h₁', h₂', hb⟩
      · rw [← hb2] at hmem
        exact ⟨b₁, b₂, h₁', hmem, hb⟩
    · rcases mem_pair_append_singleton.mp h₂ with h₂' | ⟨_, hb2⟩
      · rw [← hb1] at hmem
        exact ⟨b₁, b₂, hmem, h₂', hb⟩
      · exact absurd (hb1.trans hb2.symm) hb
  · rintro ⟨b₁, b₂, h₁, h₂, hb⟩
    exact ⟨b₁, b₂, List.mem_append_left _ h₁, List.mem_append_left _ h₂, hb⟩

theorem fpcAux_cons_invalid (m : List (String × String)) (probs : List String)
    (r : Option String × Option String)
    (rest : List (Option String × Option String))
    (h : ¬(codeKey r.1 ≠ "" ∧ codeKey r.1 ≠ "None")) :
    fpcAux m probs (r :: rest) = fpcAux m probs rest := by
  simp only [fpcAux]
  rw [if_neg h]

theorem fpcAux_cons_new (m : List (String × String)) (probs : List String)
    (r : Option String × Option String)
    (rest : List (Option String × Option String))
    (h : codeKey r.1 ≠ "" ∧ codeKey r.1 ≠ "None")
    (hfb : firstBank m (codeKey r.1) = Option.none) :
    fpcAux m probs (r :: rest) =
      fpcAux ((codeKey r.1, codeKey r.2) :: m) probs rest := by
  simp only [fpcAux]
  rw [if_pos h, hfb]

theorem fpcAux_cons_diff (m : List (String × String)) (probs : List String)
    (r : Option String × Option String)
    (rest : List (Option String × Option String)) (b : String)
    (h : codeKey r.1 ≠ "" ∧ codeKey r.1 ≠ "None")
    (hfb : firstBank m (codeKey r.1) = some b) (hne : b ≠ codeKey r.2) :
    fpcAux m probs (r :: rest) =
      fpcAux m (probs.insert (codeKey r.1)) rest := by
  simp only [fpcAux]
  rw [if_pos h, hfb]
  show (if b ≠ codeKey r.2 then fpcAux m (List.insert (codeKey r.1) probs) rest
        else fpcAux m probs rest) = _
  rw [if_pos hne]

theorem fpcAux_cons_same (m : List (String × String)) (probs : List String)
    (r : Option String × Option String)
    (rest : List (Option String × Option String)) (b : String)
    (h : codeKey r.1 ≠ "" ∧ codeKey r.1 ≠ "None")
    (hfb : firstBank m (codeKey r.1) = some b) (heq : ¬b ≠ codeKey r.2) :
    fpcAux m probs (r :: rest) = fpcAux m probs rest := by
  simp only [fpcAux]
  rw [if_pos h, hfb]
  show (if b ≠ codeKey r.2 then fpcAux m (List.insert (codeKey r.1) probs) rest
        else fpcAux m probs rest) = _
  rw [if_neg heq]

theorem scanEntries_cons_valid (r : Option String × Option String)
    (rest : List (Option String × Option String))
    (h : codeKey r.1 ≠ "" ∧ codeKey r.1 ≠ "None") :
    scanEntries (r :: rest) =
      (codeKey r.1, codeKey r.2) :: scanEntries rest := by
  simp only [scanEntries]
  rw [if_pos h]

theorem scanEntries_cons_invalid (r : Option String × Option String)
    (rest : List (Option String × Option String))
    (h : ¬(codeKey r.1 ≠ "" ∧ codeKey r.1 ≠ "None")) :
    scanEntries (r :: rest) = scanEntries rest := by
  simp only [scanEntries]
  rw [if_neg h]

theorem fpcAux_mem_iff (rows : List (Option String × Option String)) :
    ∀ (m : List (String × String)) (probs : List String)
      (H : List (String × String)),
    (∀ c, firstBank m c = firstBank H c) →
    (∀ c, c ∈ probs ↔ AmbigIn H c) →
    ∀ c, c ∈ fpcAux m probs rows ↔ AmbigIn (H ++ scanEntries rows) c := by
  induction rows with
  | nil =>
    intro m probs H _ h2 c
    rw [show scanEntries [] = [] from rfl, List.append_nil]
    exact h2 c
  | cons r rest ih =>
    intro m probs H h1 h2 c
    by_cases hv : codeKey r.1 ≠ "" ∧ codeKey r.1 ≠ "None"
    · rw [scanEntries_cons_valid r rest hv]
      have happ : H ++ (codeKey r.1, codeKey r.2) :: scanEntries rest =
          (H ++ [(codeKey r.1, codeKey r.2)]) ++ scanEntries rest := by
        rw [List.append_assoc]
        rfl
      rw [happ]
      cases hfb : firstBank m (codeKey r.1) with
      | none =>
        rw [fpcAux_cons_new m probs r rest hv hfb]
        have hH : firstBank H (codeKey r.1) = Option.none := by
          rw [← h1]
          exact hfb
        refine ih _ probs (H ++ [(codeKey r.1, codeKey r.2)]) ?_ ?_ c
        · intro d
          rw [firstBank_append]
          by_cases hd : codeKey r.1 = d
          · subst hd
            rw [hH]
            simp [firstBank]
          · have hstep : firstBank ((codeKey r.1, codeKey r.2) :: m) d =
                firstBank m d := by
              simp only [firstBank]
              rw [if_neg hd]
            rw [hstep, h1 d]
            cases hfbH : firstBank H d with
            | none => simp [firstBank, hd]
            | some b' => rfl
        · intro d
          rw [h2 d]
          by_cases hd : d = codeKey r.1
          · rw [hd]
            have hnone : ∀ b, (codeKey r.1, b) ∉ H :=
              (firstBank_eq_none_iff H _).mp hH
            exact (ambigIn_append_singleton_self hnone).symm
          · exact (ambigIn_append_singleton_ne hd).symm
      | some b =>
        have hfbH : firstBank H (codeKey r.1) = some b := by
          rw [← h1]
          exact hfb
        have hA : ∀ d, firstBank m d =
            firstBank (H ++ [(codeKey r.1, codeKey r.2)]) d := by
          intro d
          rw [firstBank_append, h1 d]
          cases hfbH' : firstBank H d with
          | some b' => rfl
          | none =>
            have hd : codeKey r.1 ≠ d := by
              intro hdd
              rw [← hdd, hfbH] at hfbH'
              cases hfbH'
            simp [firstBank, hd]
        by_cases hne : b ≠ codeKey r.2
        · rw [fpcAux_cons_diff m probs r rest b hv hfb hne]
          refine ih m (probs.insert (codeKey r.1))
            (H ++ [(codeKey r.1, codeKey r.2)]) hA ?_ c
          intro d
          rw [List.mem_insert_iff]
          by_cases hd : d = codeKey r.1
          · subst hd
            constructor
            · intro _
              exact ⟨b, codeKey r.2,
                List.mem_append_left _ (firstBank_mem hfbH),
                List.mem_append_right _ (by simp), hne⟩
            · intro _
              exact Or.inl rfl
          · rw [show (d = codeKey r.1 ∨ d ∈ probs) ↔ d ∈ probs by simp [hd]]
            rw [h2 d]
            exact (ambigIn_append_singleton_ne hd).symm
        · rw [fpcAux_cons_same m probs r rest b hv hfb hne]
          refine ih m probs (H ++ [(codeKey r.1, codeKey r.2)]) hA ?_ c
          intro d
          rw [h2 d]
          by_cases hd : d = codeKey r.1
          · rw [hd]
            have heq : b = codeKey r.2 := not_ne_iff.mp hne
            have hmem : (codeKey r.1, codeKey r.2) ∈ H := by
              have hm := firstBank_mem hfbH
              rwa [heq] at hm
            exact (ambigIn_append_singleton_dup hmem).symm
          · exact (ambigIn_append_singleton_ne hd).symm
    · rw [fpcAux_cons_invalid m probs r rest hv, scanEntries_cons_invalid r rest hv]
      exact ih m probs H h1 h2 c

theorem mem_scanEntries (rows : List (Option String × Option String))
    (c b : String) :
    (c, b) ∈ scanEntries rows ↔
      (c ≠ "" ∧ c ≠ "None") ∧
      ∃ r ∈ rows, codeKey r.1 = c ∧ codeKey r.2 = b := by
  induction rows with
  | nil => simp [scanEntries]
  | cons r rest ih =>
    by_cases hv : codeKey r.1 ≠ "" ∧ codeKey r.1 ≠ "None"
    · rw [scanEntries_cons_valid r rest hv]
      rw [List.mem_cons, ih]
      constructor
      · rintro (heq | ⟨hval, x, hx, hcx, hbx⟩)
        · rw [Prod.mk.injEq] at heq
          refine ⟨heq.1 ▸ hv, r, List.mem_cons_self r rest, heq.1.symm, heq.2.symm⟩
        · exact ⟨hval, x, List.mem_cons_of_mem r hx, hcx, hbx⟩
      · rintro ⟨hval, x, hx, hcx, hbx⟩
        rcases List.mem_cons.mp hx with hxr | hxm
        · subst hxr
          left
          rw [Prod.mk.injEq]
          exact ⟨hcx.symm, hbx.symm⟩
        · right
          exact ⟨hval, x, hxm, hcx, hbx⟩
    · rw [scanEntries_cons_invalid r rest hv]
      rw [ih]
      constructor
      · rintro ⟨hval, x, hx, hcx, hbx⟩
        exact ⟨hval, x, List.mem_cons_of_mem r hx, hcx, hbx⟩
      · rintro ⟨hval, x, hx, hcx, hbx⟩
        rcases List.mem_cons.mp hx with hxr | hxm
        · subst hxr
          exact absurd (hcx ▸ hval) hv
        · exact ⟨hval, x, hxm, hcx, hbx⟩

/-- C2: the ambiguity scan flags a code exactly when that code (valid: not
empty and not the `str(None)` artifact) occurs on two scanned rows whose
bank keys differ; the characterization is membership-based, so the result is
independent of row order — banks {A, A, B} in any order are ambiguous, and
{A, A, A} never is. -/
theorem find_problematic_abc_codes_iff
    (rows : List (Option String × Option String)) (c : String) :
    (c ∈ find_problematic_abc_codes rows ↔ ambiguousCode rows c) ∧
    (∀ rows', rows.Perm rows' →
      (c ∈ find_problematic_abc_codes rows ↔
        c ∈ find_problematic_abc_codes rows')) ∧
    find_problematic_abc_codes
      [(some "c", some "A"), (some "c", some "A"), (some "c", some "B")] =
      ["c"] ∧
    find_problematic_abc_codes
      [(some "c", some "A"), (some "c", some "B"), (some "c", some "A")] =
      ["c"] ∧
    find_problematic_abc_codes
      [(some "c", some "B"), (some "c", some "A"), (some "c", some "A")] =
      ["c"] ∧
    find_problematic_abc_codes
      [(some "c", some "A"), (some "c", some "A"), (some "c", some "A")] =
      [] := by
  have hiff : ∀ (rs : List (Option String × Option String)) (d : String),
      d ∈ find_problematic_abc_codes rs ↔ ambiguousCode rs d := by
    intro rs d
    have h : d ∈ find_problematic_abc_codes rs ↔
        AmbigIn ([] ++ scanEntries rs) d :=
      fpcAux_mem_iff rs [] [] [] (fun _ => rfl)
        (by intro d'; simp [AmbigIn]) d
    rw [List.nil_append] at h
    rw [h]
    constructor
    · rintro ⟨b₁, b₂, h₁, h₂, hb⟩
      obtain ⟨hval, r₁, hr₁, hc₁, hb₁⟩ := (mem_scanEntries rs d b₁).mp h₁
      obtain ⟨_, r₂, hr₂, hc₂, hb₂⟩ := (mem_scanEntries rs d b₂).mp h₂
      exact ⟨hval.1, hval.2, r₁, hr₁, r₂, hr₂, hc₁, hc₂, by
        rw [hb₁, hb₂]; exact hb⟩
    · rintro ⟨h1', h2', r₁, hr₁, r₂, hr₂, hc₁, hc₂, hbb⟩
      exact ⟨codeKey r₁.2, codeKey r₂.2,
        (mem_scanEntries rs d _).mpr ⟨⟨h1', h2'⟩, r₁, hr₁, hc₁, rfl⟩,
        (mem_scanEntries rs d _).mpr ⟨⟨h1', h2'⟩, r₂, hr₂, hc₂, rfl⟩, hbb⟩
  refine ⟨hiff rows c, ?_, by decide, by decide, by decide, by decide⟩
  intro rows' hperm
  rw [hiff rows c, hiff rows' c]
  unfold ambiguousCode
  constructor
  · rintro ⟨hv1, hv2, r₁, hr₁, r₂, hr₂, hc₁, hc₂, hbb⟩
    exact ⟨hv1, hv2, r₁, hperm.mem_iff.mp hr₁, r₂, hperm.mem_iff.mp hr₂,
      hc₁, hc₂, hbb⟩
  · rintro ⟨hv1, hv2, r₁, hr₁, r₂, hr₂, hc₁, hc₂, hbb⟩
    exact ⟨hv1, hv2, r₁, hperm.mem_iff.mpr hr₁, r₂, hperm.mem_iff.mpr hr₂,
      hc₁, hc₂, hbb⟩

theorem find_problematic_abc_codes_iff_witness :
    "c" ∈ find_problematic_abc_codes
        [(some "c", some "A"), (some "c", some "B")] ↔
    "c" ∈ find_problematic_abc_codes
        [(some "c", some "B"), (some "c", some "A")] := by
  exact (find_problematic_abc_codes_iff
    [(some "c", some "A"), (some "c", some "B")] "c").2.1
    [(some "c", some "B"), (some "c", some "A")]
    (List.Perm.swap (some "c", some "B") (some "c", some "A") [])

theorem pyUpper_space {c : Char} (h : pySpace c = true) : pyUpper c = c := by
  have hn : ¬(97 ≤ c.toNat ∧ c.toNat ≤ 122) := by
    simp only [pySpace, Bool.or_eq_true, beq_iff_eq] at h
    omega
  unfold pyUpper
  rw [if_neg hn]

theorem pyUpper_ne_o (c : Char) : pyUpper c ≠ 'o' := by
  intro h
  have ht := congrArg Char.toNat h
  unfold pyUpper at ht
  by_cases hc : 97 ≤ c.toNat ∧ c.toNat ≤ 122
  · rw [if_pos hc] at ht
    rw [char_toNat_ofNat (by omega)] at ht
    rw [show ('o').toNat = 111 from rfl] at ht
    omega
  · rw [if_neg hc] at ht
    rw [show ('o').toNat = 111 from rfl] at ht
    omega

theorem head_dropWhile_not (l : List Char) :
    ∀ c, (List.dropWhile pySpace l).head? = some c → pySpace c = false := by
  induction l with
  | nil => intro c hc; cases hc
  | cons x t ih =>
    by_cases hx : pySpace x = true
    · rw [List.dropWhile_cons, if_pos hx]
      exact ih
    · rw [List.dropWhile_cons, if_neg hx]
      intro c hc
      rw [show (x :: t).head? = some x from rfl, Option.some.injEq] at hc
      rw [← hc]
      exact Bool.not_eq_true _ ▸ hx

theorem dropTrail_prefix (l : List Char) : ∃ t, l = dropTrail l ++ t := by
  refine ⟨(List.takeWhile pySpace l.reverse).reverse, ?_⟩
  have h := List.takeWhile_append_dropWhile pySpace l.reverse
  calc l = l.reverse.reverse := (List.reverse_reverse l).symm
    _ = (List.takeWhile pySpace l.reverse ++
          List.dropWhile pySpace l.reverse).reverse := by rw [h]
    _ = dropTrail l ++ (List.takeWhile pySpace l.reverse).reverse := by
          rw [List.reverse_append]; rfl

theorem strip_headOk (l : List Char) :
    ∀ c, (pyStripList l).head? = some c → pySpace c = false := by
  intro c hc
  have hc' : (dropTrail (dropLead l)).head? = some c := hc
  obtain ⟨t, ht⟩ := dropTrail_prefix (dropLead l)
  cases hdt : dropTrail (dropLead l) with
  | nil => rw [hdt] at hc'; cases hc'
  | cons x xs =>
    rw [hdt] at hc' ht
    rw [show (x :: xs).head? = some x from rfl, Option.some.injEq] at hc'
    refine head_dropWhile_not l c ?_
    show (dropLead l).head? = some c
    rw [ht]
    rw [show ((x :: xs) ++ t).head? = some x from rfl, hc']

theorem strip_lastOk (l : List Char) :
    ∀ c, (pyStripList l).getLast? = some c → pySpace c = false := by
  intro c hc
  have hc' : ((List.dropWhile pySpace (dropLead l).reverse).reverse).getLast? =
      some c := hc
  rw [List.getLast?_reverse] at hc'
  exact head_dropWhile_not (dropLead l).reverse c hc'

theorem collapseRuns_head (t : List Char) : ∀ x : Char,
    (collapseRuns (x :: t)).head? = some (if pySpace x then ' ' else x) := by
  induction t with
  | nil => intro x; rfl
  | cons d t2 ih =>
    intro x
    by_cases hxd : (pySpace x && pySpace d) = true
    · simp only [collapseRuns]
      rw [if_pos hxd]
      rw [ih d]
      have hxd' := hxd
      simp only [Bool.and_eq_true] at hxd'
      rw [if_pos hxd'.1, if_pos hxd'.2]
    · simp only [collapseRuns]
      rw [if_neg hxd]
      rfl

theorem collapseRuns_ne_nil (x : Char) (t : List Char) :
    collapseRuns (x :: t) ≠ [] := by
  intro h
  have := collapseRuns_head t x
  rw [h] at this
  cases this

theorem collapseRuns_spaces_blank (l : List Char) :
    ∀ c ∈ collapseRuns l, pySpace c = true → c = ' ' := by
  induction l with
  | nil => intro c hc; cases hc
  | cons x t ih =>
    cases t with
    | nil =>
      intro c hc hs
      rw [show collapseRuns [x] = [if pySpace x then ' ' else x] from rfl] at hc
      rcases List.mem_singleton.mp hc with rfl
      by_cases hx : pySpace x = true
      · rw [if_pos hx]
      · rw [if_neg hx] at hs ⊢
        rw [hs] at hx
        exact absurd rfl hx
    | cons d t2 =>
      intro c hc hs
      by_cases hxd : (pySpace x && pySpace d) = true
      · rw [show collapseRuns (x :: d :: t2) = collapseRuns (d :: t2) by
          simp only [collapseRuns]; rw [if_pos hxd]] at hc
        exact ih c hc hs
      · rw [show collapseRuns (x :: d :: t2) =
          (if pySpace x then ' ' else x) :: collapseRuns (d :: t2) by
          simp only [collapseRuns]; rw [if_neg hxd]] at hc
        rcases List.mem_cons.mp hc with heq | hmem
        · by_cases hx : pySpace x = true
          · rw [heq, if_pos hx]
          · rw [heq, if_neg hx] at hs
            rw [heq, if_neg hx]
            rw [hs] at hx
            exact absurd rfl hx
        · exact ih c hmem hs

theorem collapseRuns_chain (l : List Char) :
    List.Chain' (fun a b => ¬(pySpace a = true ∧ pySpace b = true))
      (collapseRuns l) := by
  induction l with
  | nil => exact List.chain'_nil
  | cons x t ih =>
    cases t with
    | nil => exact List.chain'_singleton _
    | cons d t2 =>
      by_cases hxd : (pySpace x && pySpace d) = true
      · rw [show collapseRuns (x :: d :: t2) = collapseRuns (d :: t2) by
          simp only [collapseRuns]; rw [if_pos hxd]]
        exact ih
      · rw [show collapseRuns (x :: d :: t2) =
          (if pySpace x then ' ' else x) :: collapseRuns (d :: t2) by
          simp only [collapseRuns]; rw [if_neg hxd]]
        cases hcol : collapseRuns (d :: t2) with
        | nil => exact List.chain'_singleton _
        | cons y ys =>
          rw [List.chain'_cons]
          constructor
          · have hy : y = if pySpace d then ' ' else d := by
              have := collapseRuns_head t2 d
              rw [hcol] at this
              rw [show (y :: ys).head? = some y from rfl,
                Option.some.injEq] at this
              exact this
            rintro ⟨hs1, hs2⟩
            by_cases hx : pySpace x = true
            · have hd : pySpace d = false := by
                rcases Bool.and_eq_false_iff.mp
                  (Bool.not_eq_true _ ▸ hxd : (pySpace x && pySpace d) = false)
                  with h | h
                · rw [hx] at h; cases h
                · exact h
              rw [hy, if_neg (by rw [hd]; exact Bool.false_ne_true)] at hs2
              rw [hd] at hs2
              cases hs2
            · rw [if_neg hx] at hs1
              rw [hs1] at hx
              exact absurd rfl hx
          · rw [← hcol]
            exact ih

theorem collapseRuns_headOk (l : List Char)
    (h : ∀ c, l.head? = some c → pySpace c = false) :
    ∀ c, (collapseRuns l).head? = some c → pySpace c = false := by
  cases l with
  | nil => intro c hc; cases hc
  | cons x t =>
    intro c hc
    rw [collapseRuns_head t x, Option.some.injEq] at hc
    have hx : pySpace x = false := h x rfl
    rw [if_neg (by rw [hx]; exact Bool.false_ne_true)] at hc
    rw [← hc]
    exact hx

theorem collapseRuns_lastOk (l : List Char)
    (h : ∀ c, l.getLast? = some c → pySpace c = false) :
    ∀ c, (collapseRuns l).getLast? = some c → pySpace c = false := by
  induction l with
  | nil => intro c hc; cases hc
  | cons x t ih =>
    cases t with
    | nil =>
      intro c hc
      rw [show (collapseRuns [x]).getLast? =
        some (if pySpace x then ' ' else x) from rfl, Option.some.injEq] at hc
      have hx : pySpace x = false := h x rfl
      rw [if_neg (by rw [hx]; exact Bool.false_ne_true)] at hc
      rw [← hc]
      exact hx
    | cons d t2 =>
      have htail : ∀ c, (d :: t2).getLast? = some c → pySpace c = false := by
        intro c hc
        refine h c ?_
        rw [List.getLast?_cons_cons]
        exact hc
      intro c hc
      by_cases hxd : (pySpace x && pySpace d) = true
      · rw [show collapseRuns (x :: d :: t2) = collapseRuns (d :: t2) by
          simp only [collapseRuns]; rw [if_pos hxd]] at hc
        exact ih htail c hc
      · rw [show collapseRuns (x :: d :: t2) =
          (if pySpace x then ' ' else x) :: collapseRuns (d :: t2) by
          simp only [collapseRuns]; rw [if_neg hxd]] at hc
        cases hcol : collapseRuns (d :: t2) with
        | nil => exact absurd hcol (collapseRuns_ne_nil d t2)
        | cons y ys =>
          rw [hcol, List.getLast?_cons_cons] at hc
          refine ih htail c ?_
          rw [hcol]
          exact hc

theorem dropLead_of_headOk (l : List Char)
    (h : ∀ c, l.head? = some c → pySpace c = false) : dropLead l = l := by
  cases l with
  | nil => rfl
  | cons x t =>
    have hx : pySpace x = false := h x rfl
    unfold dropLead
    rw [List.dropWhile_cons, if_neg (by rw [hx]; exact Bool.false_ne_true)]

theorem dropTrail_of_lastOk (l : List Char)
    (h : ∀ c, l.getLast? = some c → pySpace c = false) : dropTrail l = l := by
  unfold dropTrail
  cases hrev : l.reverse with
  | nil =>
    have hnil : l = [] := by
      have h2 := congrArg List.reverse hrev
      rwa [List.reverse_reverse] at h2
    rw [hnil]
    rfl
  | cons y ys =>
    have hy : pySpace y = false := by
      refine h y ?_
      rw [← List.head?_reverse, hrev]
      rfl
    rw [List.dropWhile_cons, if_neg (by rw [hy]; exact Bool.false_ne_true)]
    have h2 := congrArg List.reverse hrev
    rw [List.reverse_reverse] at h2
    exact h2.symm

theorem pyStripList_of_nice (l : List Char)
    (hh : ∀ c, l.head? = some c → pySpace c = false)
    (hl : ∀ c, l.getLast? = some c → pySpace c = false) :
    pyStripList l = l := by
  unfold pyStripList
  rw [dropLead_of_headOk l hh]
  exact dropTrail_of_lastOk l hl

theorem collapseRuns_of_nice (l : List Char)
    (hsb : ∀ c ∈ l, pySpace c = true → c = ' ')
    (hch : List.Chain' (fun a b => ¬(pySpace a = true ∧ pySpace b = true)) l) :
    collapseRuns l = l := by
  induction l with
  | nil => rfl
  | cons x t ih =>
    cases t with
    | nil =>
      show [if pySpace x then ' ' else x] = [x]
      by_cases hx : pySpace x = true
      · rw [if_pos hx, hsb x (List.mem_singleton.mpr rfl) hx]
      · rw [if_neg hx]
    | cons d t2 =>
      rw [List.chain'_cons] at hch
      obtain ⟨hrel, hch'⟩ := hch
      have hxd : (pySpace x && pySpace d) = false := by
        cases hpx : pySpace x with
        | false => rfl
        | true =>
          cases hpd : pySpace d with
          | false => rfl
          | true => exact absurd ⟨hpx, hpd⟩ hrel
      simp only [collapseRuns]
      rw [if_neg (by rw [hxd]; exact Bool.false_ne_true)]
      have htail := ih (fun c hc hs => hsb c (List.mem_cons_of_mem x hc) hs) hch'
      rw [htail]
      by_cases hx : pySpace x = true
      · rw [if_pos hx, hsb x (List.mem_cons_self x _) hx]
      · rw [if_neg hx]

theorem map_pyUpper_headOk (l : List Char)
    (h : ∀ c, l.head? = some c → pySpace c = false) :
    ∀ c, (l.map pyUpper).head? = some c → pySpace c = false := by
  cases l with
  | nil => intro c hc; cases hc
  | cons x t =>
    intro c hc
    rw [show ((x :: t).map pyUpper).head? = some (pyUpper x) from rfl,
      Option.some.injEq] at hc
    rw [← hc, pySpace_pyUpper]
    exact h x rfl

theorem map_pyUpper_lastOk (l : List Char)
    (h : ∀ c, l.getLast? = some c → pySpace c = false) :
    ∀ c, (l.map pyUpper).getLast? = some c → pySpace c = false := by
  intro c hc
  rw [← List.head?_reverse, ← List.map_reverse] at hc
  cases hrev : l.reverse with
  | nil => rw [hrev] at hc; cases hc
  | cons y ys =>
    rw [hrev] at hc
    rw [show ((y :: ys).map pyUpper).head? = some (pyUpper y) from rfl,
      Option.some.injEq] at hc
    rw [← hc, pySpace_pyUpper]
    refine h y ?_
    rw [← List.head?_reverse, hrev]
    rfl

theorem map_pyUpper_spaces_blank (l : List Char)
    (h : ∀ c ∈ l, pySpace c = true → c = ' ') :
    ∀ c ∈ l.map pyUpper, pySpace c = true → c = ' ' := by
  intro c hc hs
  rcases List.mem_map.mp hc with ⟨a, ha, rfl⟩
  rw [pySpace_pyUpper] at hs
  have ha' := h a ha hs
  rw [ha']
  decide

theorem map_pyUpper_chain (l : List Char)
    (h : List.Chain' (fun a b => ¬(pySpace a = true ∧ pySpace b = true)) l) :
    List.Chain' (fun a b => ¬(pySpace a = true ∧ pySpace b = true))
      (l.map pyUpper) := by
  rw [List.chain'_map]
  refine List.Chain'.imp ?_ h
  intro a b hab hcontra
  obtain ⟨h1, h2⟩ := hcontra
  rw [pySpace_pyUpper] at h1 h2
  exact hab ⟨h1, h2⟩

theorem map_pyUpper_idem (l : List Char) :
    (l.map pyUpper).map pyUpper = l.map pyUpper := by
  induction l with
  | nil => rfl
  | cons x t ih =>
    simp only [List.map_cons]
    rw [pyUpper_idem x]
    have ih' : ((t.map pyUpper).map pyUpper) = t.map pyUpper := ih
    simp only [List.map_cons] at ih'
    rw [ih']

theorem mk_map_pyUpper_ne_None (l : List Char) :
    String.mk (l.map pyUpper) ≠ "None" := by
  intro h
  have hd : l.map pyUpper = ("None" : String).data := congrArg String.data h
  have h1 : (l.map pyUpper)[1]? = some 'o' := by
    rw [hd]
    rfl
  rw [List.getElem?_map] at h1
  cases hl : l[1]? with
  | none => rw [hl] at h1; cases h1
  | some a =>
    rw [hl] at h1
    rw [show (some a).map pyUpper = some (pyUpper a) from rfl,
      Option.some.injEq] at h1
    exact pyUpper_ne_o a h1

/-- C9: `normalize_description` is idempotent — applying it twice gives the
same result as applying it once, for every text input. -/
theorem normalize_description_idempotent (x : String) :
    normalize_description (normalize_description x) =
      normalize_description x := by
  by_cases hg : x = "" ∨ x = "None"
  · have hx : normalize_description x = "" := by
      rw [normalize_description, if_pos hg]
    rw [hx]
    rw [normalize_description, if_pos (Or.inl rfl)]
  · have hx : normalize_description x =
        String.mk ((collapseRuns (pyStripList x.data)).map pyUpper) := by
      rw [normalize_description, if_neg hg]
    rw [hx]
    set yd := (collapseRuns (pyStripList x.data)).map pyUpper with hyd
    by_cases hy : String.mk yd = ""
    · rw [hy]
      rw [normalize_description, if_pos (Or.inl rfl)]
    · have hyN : String.mk yd ≠ "None" := mk_map_pyUpper_ne_None _
      have hx2 : normalize_description (String.mk yd) =
          String.mk ((collapseRuns (pyStripList (String.mk yd).data)).map
            pyUpper) := by
        rw [normalize_description, if_neg (not_or.mpr ⟨hy, hyN⟩)]
      rw [hx2]
      rw [show (String.mk yd).data = yd from rfl]
      have h1 : pyStripList yd = yd := by
        refine pyStripList_of_nice yd ?_ ?_
        · exact map_pyUpper_headOk _ (collapseRuns_headOk _ (strip_headOk x.data))
        · exact map_pyUpper_lastOk _ (collapseRuns_lastOk _ (strip_lastOk x.data))
      have h2 : collapseRuns yd = yd := by
        refine collapseRuns_of_nice yd ?_ ?_
        · exact map_pyUpper_spaces_blank _ (collapseRuns_spaces_blank _)
        · exact map_pyUpper_chain _ (collapseRuns_chain _)
      rw [h1, h2, hyd, map_pyUpper_idem]

end Unificador
